import Mathlib

/-!
Shallow embedding of the timeflake-rs library (src/lib.rs, src/error.rs).

A Timeflake is a 128-bit identifier: a 48-bit millisecond timestamp in the
high bits and an 80-bit random component in the low bits.  Machine integers
are modelled as `Nat` (the Rust code itself works through `BigUint` and
`u128`); byte arrays `[u8; 16]` are modelled as `List Nat` together with the
predicate `isBytes16`; fallible operations return `Except Error`.
-/

/-- The Base62 character set used for encoding and decoding (lib.rs `BASE62`). -/
def BASE62 : String := "0123456789ABCDEFGHIJKLMNOPQRSTUVWXYZabcdefghijklmnopqrstuvwxyz"

/-- The hexadecimal character set (lib.rs `HEX`). -/
def HEX : String := "0123456789abcdef"

/-- The maximum possible timestamp component, 2^48 - 1 (lib.rs `MAX_TIMESTAMP`). -/
def MAX_TIMESTAMP : Nat := 281474976710655

/-- The maximum possible random component, 2^80 - 1 (lib.rs `MAX_RANDOM`). -/
def MAX_RANDOM : Nat := 1208925819614629174706175

/-- The maximum possible integer value, 2^128 - 1 (lib.rs `MAX_TIMEFLAKE`). -/
def MAX_TIMEFLAKE : Nat := 340282366920938463463374607431768211455

/-- lib.rs `max_random_biguint`: the decimal string `MAX_RANDOM` as an integer. -/
def max_random_biguint : Nat := MAX_RANDOM

/-- lib.rs `max_timeflake_biguint`: the decimal string `MAX_TIMEFLAKE` as an integer. -/
def max_timeflake_biguint : Nat := MAX_TIMEFLAKE

deriving instance DecidableEq for Except

/-- The error enumeration of src/error.rs. -/
inductive Error where
  | InvalidFlake : Error
  | ParseError : String → String → Error
  | InvalidTimestamp : Nat → Error
  | InvalidRandom : Error
  | UuidError : String → Error
  | ConversionError : String → Error
deriving DecidableEq

/-- Little-endian base-`b` digits of `n`, with explicit fuel so that the
recursion is structural (the loops in the source terminate because the
argument shrinks by a factor of `b` each step). -/
def natDigitsLE (b : Nat) : Nat → Nat → List Nat
  | 0, _ => []
  | fuel + 1, n => if n = 0 then [] else n % b :: natDigitsLE b fuel (n / b)

/-- Value of a little-endian base-`b` digit list. -/
def ofDigitsLE (b : Nat) : List Nat → Nat
  | [] => 0
  | d :: ds => d + b * ofDigitsLE b ds

/-- num-bigint `BigUint::to_bytes_be`: minimal big-endian bytes, `[0]` for zero. -/
def to_bytes_be (n : Nat) : List Nat :=
  if n = 0 then [0] else (natDigitsLE 256 128 n).reverse

/-- lib.rs `bytes_to_biguint`: fold `result = (result << 8) | byte` over the bytes. -/
def bytes_to_biguint (bytes : List Nat) : Nat :=
  bytes.foldl (fun result byte => (result <<< 8) ||| byte) 0

/-- lib.rs `biguint_to_bytes`: big-endian bytes of `n`, left-padded with zeros
to 16 bytes; `ConversionError` when more than 16 bytes would be needed. -/
def biguint_to_bytes (n : Nat) : Except Error (List Nat) :=
  let bytes := to_bytes_be n
  if bytes.length > 16 then
    Except.error (Error.ConversionError
      ("BigUint is too large to fit in 16 bytes (got " ++ toString bytes.length ++ " bytes)"))
  else
    Except.ok (List.replicate (16 - bytes.length) 0 ++ bytes)

/-- The Timeflake struct of lib.rs: raw bytes plus the integer view. -/
structure Timeflake where
  bytes : List Nat
  int_value : Nat
deriving DecidableEq

/-- The `[u8; 16]` typing constraint on a modelled byte array. -/
def isBytes16 (l : List Nat) : Prop := l.length = 16 ∧ ∀ b ∈ l, b < 256

instance : DecidablePred isBytes16 := fun l => by unfold isBytes16; infer_instance

/-- Symbol for base62 digit `d`: index `d` of the `BASE62` alphabet. -/
def b62chr (d : Nat) : Char := BASE62.data.getD d '0'

/-- base62 crate digit lookup for the standard `0-9A-Za-z` alphabet. -/
def b62val (c : Char) : Option Nat :=
  if '0' ≤ c ∧ c ≤ '9' then some (c.toNat - 48)
  else if 'A' ≤ c ∧ c ≤ 'Z' then some (c.toNat - 65 + 10)
  else if 'a' ≤ c ∧ c ≤ 'z' then some (c.toNat - 97 + 36)
  else none

/-- base62 crate `encode`: base-62 digit string of `n`, `"0"` for zero. -/
def base62_encode (n : Nat) : String :=
  if n = 0 then "0" else String.mk ((natDigitsLE 62 128 n).reverse.map b62chr)

/-- Error cases of the base62 crate `decode`. -/
inductive DecodeErr where
  | EmptyInput : DecodeErr
  | InvalidByte : DecodeErr
  | Overflow : DecodeErr
deriving DecidableEq

/-- Loop of the base62 crate `decode`: per character, look the digit up in the
alphabet (error on a foreign character) and accumulate with a checked
multiply-add against `u128::MAX`. -/
def base62_decode_core : List Char → Nat → Except DecodeErr Nat
  | [], acc => Except.ok acc
  | c :: cs, acc =>
    match b62val c with
    | none => Except.error DecodeErr.InvalidByte
    | some d =>
      if acc * 62 + d > MAX_TIMEFLAKE then Except.error DecodeErr.Overflow
      else base62_decode_core cs (acc * 62 + d)

/-- base62 crate `decode` into a `u128`. -/
def base62_decode (s : String) : Except DecodeErr Nat :=
  if s.data = [] then Except.error DecodeErr.EmptyInput
  else base62_decode_core s.data 0

/-- Symbol for hex digit `d`: index `d` of the `HEX` alphabet. -/
def hexChr (d : Nat) : Char := HEX.data.getD d '0'

/-- hex crate digit lookup (either case accepted on decode). -/
def hexVal (c : Char) : Option Nat :=
  if '0' ≤ c ∧ c ≤ '9' then some (c.toNat - 48)
  else if 'a' ≤ c ∧ c ≤ 'f' then some (c.toNat - 97 + 10)
  else if 'A' ≤ c ∧ c ≤ 'F' then some (c.toNat - 65 + 10)
  else none

/-- hex crate `encode`: two lowercase symbols per byte. -/
def hex_encode (bytes : List Nat) : String :=
  String.mk (bytes.map (fun b => [hexChr (b / 16), hexChr (b % 16)])).flatten

/-- hex crate `decode` loop: consume characters two at a time. -/
def hex_decode_core : List Char → Option (List Nat)
  | [] => some []
  | [_] => none
  | c1 :: c2 :: rest =>
    match hexVal c1, hexVal c2, hex_decode_core rest with
    | some hi, some lo, some bs => some ((hi * 16 + lo) :: bs)
    | _, _, _ => none

/-- hex crate `decode`. -/
def hex_decode (s : String) : Option (List Nat) := hex_decode_core s.data

/-- `Timeflake::from_bytes`: interpret 16 bytes big-endian, validate the range. -/
def Timeflake.from_bytes (bytes : List Nat) : Except Error Timeflake :=
  let int_value := bytes_to_biguint bytes
  if int_value > max_timeflake_biguint then Except.error Error.InvalidFlake
  else Except.ok ⟨bytes, int_value⟩

/-- `Timeflake::from_components`: validate both components, pack
`(timestamp << 80) | random`, and serialise to 16 bytes. -/
def Timeflake.from_components (timestamp : Nat) (random : Nat) : Except Error Timeflake :=
  if timestamp > MAX_TIMESTAMP then Except.error (Error.InvalidTimestamp timestamp)
  else if random > max_random_biguint then Except.error Error.InvalidRandom
  else
    let int_value := (timestamp <<< 80) ||| random
    match biguint_to_bytes int_value with
    | Except.error e => Except.error e
    | Except.ok bytes => Except.ok ⟨bytes, int_value⟩

/-- `Timeflake::from_base62`: decode through the base62 crate (any decode
failure becomes the one `ParseError`), then range-check and serialise. -/
def Timeflake.from_base62 (s : String) : Except Error Timeflake :=
  match base62_decode s with
  | Except.error _ => Except.error (Error.ParseError s "Invalid base62 encoding")
  | Except.ok decoded =>
    if decoded > max_timeflake_biguint then Except.error Error.InvalidFlake
    else
      match biguint_to_bytes decoded with
      | Except.error e => Except.error e
      | Except.ok bytes => Except.ok ⟨bytes, decoded⟩

/-- `Timeflake::from_bigint`: serialise to 16 bytes, then go through `from_bytes`. -/
def Timeflake.from_bigint (value : Nat) : Except Error Timeflake :=
  match biguint_to_bytes value with
  | Except.error e => Except.error e
  | Except.ok bytes => Timeflake.from_bytes bytes

/-- `Timeflake::to_base62`: base62-encode the byte value, left-padded with
the zero symbol to 22 characters. -/
def Timeflake.to_base62 (x : Timeflake) : String :=
  let encoded := base62_encode (bytes_to_biguint x.bytes)
  if encoded.length < 22 then String.mk (List.replicate (22 - encoded.length) '0') ++ encoded
  else encoded

/-- Rust `u128` conversion `to_u64`: defined only below 2^64. -/
def toU64 (n : Nat) : Option Nat := if n < 2 ^ 64 then some n else none

/-- `Timeflake::timestamp`: shift right by 80 and convert to `u64` (the source
unwraps; the `Option` records the conversion that could in principle fail). -/
def Timeflake.timestamp (x : Timeflake) : Option Nat := toU64 (x.int_value >>> 80)

/-- `Timeflake::random`: mask with `MAX_RANDOM`. -/
def Timeflake.random (x : Timeflake) : Nat := x.int_value &&& max_random_biguint

/-- `Timeflake::to_hex`: lowercase hex of the 16 bytes. -/
def Timeflake.to_hex (x : Timeflake) : String := hex_encode x.bytes

/-- `Timeflake::to_bytes`. -/
def Timeflake.to_bytes (x : Timeflake) : List Nat := x.bytes

/-- `Timeflake::to_bigint`. -/
def Timeflake.to_bigint (x : Timeflake) : Nat := x.int_value

/-- Rust `HEX.contains(c)`. -/
def hexContains (c : Char) : Bool := HEX.data.contains c

/-- `FromStr for Timeflake`: try hex when the length is exactly 32 and all
characters are in `HEX`; else try base62 when the length is at most 22 and
all characters are ASCII alphanumeric; else fail. -/
def Timeflake.from_str (s : String) : Except Error Timeflake :=
  if s.data.length = 32 ∧ s.data.all hexContains then
    match hex_decode s with
    | none => Except.error (Error.ParseError s "Invalid hex")
    | some bytes =>
      if bytes.length ≠ 16 then
        Except.error (Error.ParseError s ("Expected 16 bytes, got " ++ toString bytes.length))
      else Timeflake.from_bytes bytes
  else if s.data.length ≤ 22 ∧ s.data.all Char.isAlphanum then
    Timeflake.from_base62 s
  else
    Except.error (Error.ParseError s
      "String must be either a 32-character hex string or a base62 string")

/-- `PartialEq for Timeflake`: equality on `int_value`. -/
def Timeflake.eq (a b : Timeflake) : Bool := a.int_value == b.int_value

/-- `Ord for Timeflake`: comparison on `int_value`. -/
def Timeflake.cmp (a b : Timeflake) : Ordering := compare a.int_value b.int_value

/-- Rust `a < b`, derived from `Ord::cmp`. -/
def Timeflake.lt (a b : Timeflake) : Prop := Timeflake.cmp a b = Ordering.lt

/-- Canonical 16-byte big-endian serialisation (the `Ok` branch of
`biguint_to_bytes`). -/
def bytes16 (n : Nat) : List Nat :=
  List.replicate (16 - (to_bytes_be n).length) 0 ++ to_bytes_be n

/-- The data-model invariant a live Timeflake maintains: the integer fits in
128 bits and the stored bytes are its canonical 16-byte big-endian form. -/
def Timeflake.Valid (x : Timeflake) : Prop :=
  x.int_value ≤ MAX_TIMEFLAKE ∧ x.bytes = bytes16 x.int_value

instance (x : Timeflake) : Decidable x.Valid := by unfold Timeflake.Valid; infer_instance

/-- Value of a big-endian base-`b` digit list, as accumulated by the decode
loops of the source (`result = result * b + digit`). -/
def ofDigitsBE (b : Nat) (ds : List Nat) : Nat := ds.foldl (fun a d => a * b + d) 0

/-- The data-model invariants of spec §3 for one instance: the value fits in
128 bits, both derived fields are in range, the two fields reconstruct the
value exactly, and the stored bytes are the canonical padded big-endian form. -/
def Invariants (x : Timeflake) : Prop :=
  x.int_value ≤ MAX_TIMEFLAKE ∧
  x.int_value >>> 80 ≤ MAX_TIMESTAMP ∧
  x.random ≤ MAX_RANDOM ∧
  x.int_value = ((x.int_value >>> 80) <<< 80) ||| x.random ∧
  x.bytes = bytes16 x.int_value

/-- The byte array of the concrete scenario in the repository's tests. -/
def demoBytes : List Nat :=
  [0x01, 0x6f, 0xa9, 0x36, 0xbf, 0xf0, 0x99, 0x7a, 0x0a, 0x3c, 0x42, 0x85, 0x48, 0xfe, 0xe8, 0xc9]

/-- The Timeflake built from `demoBytes`. -/
def demoFlake : Timeflake := ⟨demoBytes, bytes_to_biguint demoBytes⟩

/-- The all-zero Timeflake. -/
def zeroFlake : Timeflake := ⟨List.replicate 16 0, 0⟩

/-- The hex form of the concrete scenario, as a 32-character input string. -/
def hexDemoStr : String := "016fa936bff0997a0a3c428548fee8c9"

/-- A one-character input that matches neither accepted string format. -/
def bangStr : String := "!"

/-- The 22-character base62 string of all `z`, whose value exceeds 2^128 - 1. -/
def zzStr : String := String.mk (List.replicate 22 'z')

/-! Digit arithmetic: the loops in `to_bytes_be`, `base62::encode` and the two
decode folds are all positional-numeral conversions in some base.  The lemmas
below cover both bases (256 and 62) uniformly. -/

theorem natDigitsLE_digit_lt {b : Nat} (hb : 0 < b) :
    ∀ fuel n, ∀ d ∈ natDigitsLE b fuel n, d < b := by
  intro fuel
  induction fuel with
  | zero => intro n d hd; simp [natDigitsLE] at hd
  | succ fuel ih =>
    intro n d hd
    by_cases hn : n = 0
    · simp [natDigitsLE, hn] at hd
    · simp only [natDigitsLE, if_neg hn, List.mem_cons] at hd
      rcases hd with h | h
      · subst h; exact Nat.mod_lt _ hb
      · exact ih _ d h

theorem ofDigitsLE_natDigitsLE {b : Nat} (hb : 2 ≤ b) :
    ∀ fuel n, n < b ^ fuel → ofDigitsLE b (natDigitsLE b fuel n) = n := by
  intro fuel
  induction fuel with
  | zero =>
    intro n h
    simp only [Nat.pow_zero, Nat.lt_one_iff] at h
    simp [natDigitsLE, ofDigitsLE, h]
  | succ fuel ih =>
    intro n h
    by_cases hn : n = 0
    · simp [natDigitsLE, ofDigitsLE, hn]
    · have hdiv : n / b < b ^ fuel := by
        rw [Nat.div_lt_iff_lt_mul (by omega : 0 < b)]
        calc n < b ^ (fuel + 1) := h
          _ = b ^ fuel * b := by rw [Nat.pow_succ]
      simp only [natDigitsLE, if_neg hn, ofDigitsLE, ih _ hdiv]
      exact Nat.mod_add_div n b

theorem natDigitsLE_length_le {b : Nat} (hb : 2 ≤ b) :
    ∀ fuel n k, n < b ^ k → (natDigitsLE b fuel n).length ≤ k := by
  intro fuel
  induction fuel with
  | zero => intro n k _; simp [natDigitsLE]
  | succ fuel ih =>
    intro n k h
    by_cases hn : n = 0
    · simp [natDigitsLE, hn]
    · cases k with
      | zero => simp only [Nat.pow_zero, Nat.lt_one_iff] at h; omega
      | succ k =>
        have hdiv : n / b < b ^ k := by
          rw [Nat.div_lt_iff_lt_mul (by omega : 0 < b)]
          calc n < b ^ (k + 1) := h
            _ = b ^ k * b := by rw [Nat.pow_succ]
        simp only [natDigitsLE, if_neg hn, List.length_cons]
        have := ih (n / b) k hdiv
        omega

theorem lt_length_natDigitsLE {b : Nat} (hb : 2 ≤ b) :
    ∀ k fuel n, b ^ k ≤ n → k < fuel → k < (natDigitsLE b fuel n).length := by
  intro k
  induction k with
  | zero =>
    intro fuel n hn hf
    cases fuel with
    | zero => omega
    | succ fuel =>
      have hn0 : n ≠ 0 := by simp only [Nat.pow_zero] at hn; omega
      simp [natDigitsLE, hn0]
  | succ k ih =>
    intro fuel n hn hf
    cases fuel with
    | zero => omega
    | succ fuel =>
      have hn0 : n ≠ 0 := by
        have : 0 < b ^ (k + 1) := Nat.pos_pow_of_pos _ (by omega)
        omega
      have hdiv : b ^ k ≤ n / b := by
        rw [Nat.le_div_iff_mul_le (by omega : 0 < b)]
        calc b ^ k * b = b ^ (k + 1) := (Nat.pow_succ b k).symm
          _ ≤ n := hn
      simp only [natDigitsLE, if_neg hn0, List.length_cons]
      have := ih fuel (n / b) hdiv (by omega)
      omega

theorem foldl_mul_add (b : Nat) :
    ∀ (ds : List Nat) (acc : Nat),
      List.foldl (fun a d => a * b + d) acc ds = acc * b ^ ds.length + ofDigitsBE b ds := by
  intro ds
  induction ds with
  | nil => intro acc; simp [ofDigitsBE]
  | cons d ds ih =>
    intro acc
    have hconsval : ofDigitsBE b (d :: ds) = d * b ^ ds.length + ofDigitsBE b ds := by
      simp only [ofDigitsBE, List.foldl_cons]
      rw [ih (0 * b + d)]
      simp only [ofDigitsBE]
      ring
    simp only [List.foldl_cons]
    rw [ih (acc * b + d), hconsval, List.length_cons]
    ring

theorem ofDigitsBE_cons (b d : Nat) (ds : List Nat) :
    ofDigitsBE b (d :: ds) = d * b ^ ds.length + ofDigitsBE b ds := by
  simp only [ofDigitsBE, List.foldl_cons]
  rw [foldl_mul_add b ds (0 * b + d)]
  simp only [ofDigitsBE]
  ring

theorem ofDigitsBE_append (b : Nat) (l1 l2 : List Nat) :
    ofDigitsBE b (l1 ++ l2) = ofDigitsBE b l1 * b ^ l2.length + ofDigitsBE b l2 := by
  simp only [ofDigitsBE, List.foldl_append]
  rw [foldl_mul_add b l2 (List.foldl (fun a d => a * b + d) 0 l1)]
  rfl

theorem ofDigitsBE_replicate_zero (b k : Nat) : ofDigitsBE b (List.replicate k 0) = 0 := by
  induction k with
  | zero => simp [ofDigitsBE]
  | succ k ih => rw [List.replicate_succ, ofDigitsBE_cons, ih]; ring

theorem ofDigitsBE_reverse (b : Nat) :
    ∀ ds : List Nat, ofDigitsBE b ds.reverse = ofDigitsLE b ds := by
  intro ds
  induction ds with
  | nil => simp [ofDigitsBE, ofDigitsLE]
  | cons d ds ih =>
    rw [List.reverse_cons, ofDigitsBE_append, ih]
    simp only [ofDigitsLE]
    have : ofDigitsBE b [d] = d := by simp [ofDigitsBE]
    rw [this]
    simp only [List.length_cons, List.length_nil, Nat.pow_one]
    ring

theorem ofDigitsBE_lt {b : Nat} :
    ∀ ds : List Nat, (∀ d ∈ ds, d < b) → ofDigitsBE b ds < b ^ ds.length := by
  intro ds
  induction ds with
  | nil => intro _; simp [ofDigitsBE]
  | cons d ds ih =>
    intro h
    have hd : d < b := h d (List.mem_cons_self d ds)
    have hds : ofDigitsBE b ds < b ^ ds.length := ih fun x hx => h x (List.mem_cons_of_mem d hx)
    rw [ofDigitsBE_cons, List.length_cons]
    calc d * b ^ ds.length + ofDigitsBE b ds
        < d * b ^ ds.length + b ^ ds.length := by omega
      _ = (d + 1) * b ^ ds.length := by ring
      _ ≤ b * b ^ ds.length := Nat.mul_le_mul_right _ (by omega)
      _ = b ^ (ds.length + 1) := by rw [Nat.pow_succ]; ring

theorem ofDigitsBE_inj {b : Nat} (hb : 0 < b) :
    ∀ (l1 l2 : List Nat), l1.length = l2.length →
      (∀ d ∈ l1, d < b) → (∀ d ∈ l2, d < b) →
      ofDigitsBE b l1 = ofDigitsBE b l2 → l1 = l2 := by
  intro l1
  induction l1 with
  | nil =>
    intro l2 hlen _ _ _
    cases l2 with
    | nil => rfl
    | cons _ _ => simp at hlen
  | cons d1 t1 ih =>
    intro l2 hlen h1 h2 hval
    cases l2 with
    | nil => simp at hlen
    | cons d2 t2 =>
      simp only [List.length_cons] at hlen
      have htlen : t1.length = t2.length := by omega
      rw [ofDigitsBE_cons, ofDigitsBE_cons, htlen] at hval
      have hv1 : ofDigitsBE b t1 < b ^ t2.length := htlen ▸ ofDigitsBE_lt t1 fun x hx => h1 x (List.mem_cons_of_mem _ hx)
      have hv2 : ofDigitsBE b t2 < b ^ t2.length := ofDigitsBE_lt t2 fun x hx => h2 x (List.mem_cons_of_mem _ hx)
      have hpow : 0 < b ^ t2.length := Nat.pos_pow_of_pos _ hb
      have hd : d1 = d2 := by
        have e1 : (b ^ t2.length * d1 + ofDigitsBE b t1) / b ^ t2.length = d1 := by
          rw [Nat.mul_add_div hpow, Nat.div_eq_of_lt hv1, Nat.add_zero]
        have e2 : (b ^ t2.length * d2 + ofDigitsBE b t2) / b ^ t2.length = d2 := by
          rw [Nat.mul_add_div hpow, Nat.div_eq_of_lt hv2, Nat.add_zero]
        rw [Nat.mul_comm d1, Nat.mul_comm d2] at hval
        rw [← e1, ← e2, hval]
      subst hd
      have ht : ofDigitsBE b t1 = ofDigitsBE b t2 := by omega
      rw [ih t2 htlen (fun x hx => h1 x (List.mem_cons_of_mem _ hx))
        (fun x hx => h2 x (List.mem_cons_of_mem _ hx)) ht]

/-! Bridge from the bitwise operations in the source (`<< 8 | byte`,
`<< 80 | random`, `& MAX_RANDOM`, `>> 80`) to plain arithmetic. -/

theorem shiftLeft8_or (a d : Nat) (hd : d < 256) : (a <<< 8) ||| d = a * 256 + d := by
  rw [Nat.shiftLeft_eq]
  calc a * 2 ^ 8 ||| d = 2 ^ 8 * a ||| d := by rw [Nat.mul_comm]
    _ = 2 ^ 8 * a + d := (Nat.mul_add_lt_is_or (by omega : d < 2 ^ 8) a).symm
    _ = a * 256 + d := by ring

theorem foldl_shiftor_eq :
    ∀ (l : List Nat), (∀ x ∈ l, x < 256) → ∀ acc,
      List.foldl (fun result byte => (result <<< 8) ||| byte) acc l
        = List.foldl (fun a d => a * 256 + d) acc l := by
  intro l
  induction l with
  | nil => intro _ acc; rfl
  | cons d ds ih =>
    intro hl acc
    simp only [List.foldl_cons]
    rw [shiftLeft8_or acc d (hl d (List.mem_cons_self d ds))]
    exact ih (fun x hx => hl x (List.mem_cons_of_mem d hx)) (acc * 256 + d)

theorem bytes_to_biguint_eq (l : List Nat) (hl : ∀ x ∈ l, x < 256) :
    bytes_to_biguint l = ofDigitsBE 256 l := by
  unfold bytes_to_biguint ofDigitsBE
  exact foldl_shiftor_eq l hl 0

theorem to_bytes_be_spec {n : Nat} (hn : n ≤ MAX_TIMEFLAKE) :
    (to_bytes_be n).length ≤ 16 ∧ (∀ d ∈ to_bytes_be n, d < 256) ∧
      ofDigitsBE 256 (to_bytes_be n) = n := by
  by_cases h0 : n = 0
  · subst h0
    exact ⟨by decide, by decide, by decide⟩
  · have hlt16 : n < 256 ^ 16 := by
      have : MAX_TIMEFLAKE < 256 ^ 16 := by decide
      omega
    have hltfuel : n < 256 ^ 128 := by
      have : (256 : Nat) ^ 16 ≤ 256 ^ 128 := Nat.pow_le_pow_right (by omega) (by omega)
      omega
    refine ⟨?_, ?_, ?_⟩
    · simp only [to_bytes_be, if_neg h0, List.length_reverse]
      exact natDigitsLE_length_le (by omega) 128 n 16 hlt16
    · intro d hd
      simp only [to_bytes_be, if_neg h0, List.mem_reverse] at hd
      exact natDigitsLE_digit_lt (by omega) 128 n d hd
    · simp only [to_bytes_be, if_neg h0]
      rw [ofDigitsBE_reverse]
      exact ofDigitsLE_natDigitsLE (by omega) 128 n hltfuel

theorem bytes16_spec {n : Nat} (hn : n ≤ MAX_TIMEFLAKE) :
    isBytes16 (bytes16 n) ∧ bytes_to_biguint (bytes16 n) = n := by
  obtain ⟨hlen, hdig, hval⟩ := to_bytes_be_spec hn
  have hall : ∀ d ∈ bytes16 n, d < 256 := by
    intro d hd
    rcases List.mem_append.1 hd with h | h
    · have := List.eq_of_mem_replicate h; omega
    · exact hdig d h
  have hlen16 : (bytes16 n).length = 16 := by
    simp only [bytes16, List.length_append, List.length_replicate]
    omega
  refine ⟨⟨hlen16, hall⟩, ?_⟩
  rw [bytes_to_biguint_eq _ hall]
  unfold bytes16
  rw [ofDigitsBE_append, ofDigitsBE_replicate_zero, hval]
  ring

theorem biguint_to_bytes_ok {n : Nat} (hn : n ≤ MAX_TIMEFLAKE) :
    biguint_to_bytes n = Except.ok (bytes16 n) := by
  obtain ⟨hlen, _, _⟩ := to_bytes_be_spec hn
  simp only [biguint_to_bytes, bytes16]
  rw [if_neg (by omega)]

theorem bytes_to_biguint_le {l : List Nat} (hl : isBytes16 l) :
    bytes_to_biguint l ≤ MAX_TIMEFLAKE := by
  obtain ⟨hlen, hdig⟩ := hl
  rw [bytes_to_biguint_eq l hdig]
  have h := ofDigitsBE_lt l hdig
  rw [hlen] at h
  have h16 : (256 : Nat) ^ 16 = MAX_TIMEFLAKE + 1 := by decide
  omega

theorem bytes16_of_value {l : List Nat} (hl : isBytes16 l) :
    bytes16 (bytes_to_biguint l) = l := by
  have hle := bytes_to_biguint_le hl
  obtain ⟨hb16, hval⟩ := bytes16_spec hle
  obtain ⟨hlen1, hdig1⟩ := hb16
  obtain ⟨hlen2, hdig2⟩ := hl
  refine ofDigitsBE_inj (b := 256) (by omega) _ _ (by rw [hlen1, hlen2]) hdig1 hdig2 ?_
  rw [← bytes_to_biguint_eq _ hdig1, ← bytes_to_biguint_eq _ hdig2, hval]

theorem pack_or_eq {t r : Nat} (hr : r < 2 ^ 80) : (t <<< 80) ||| r = t * 2 ^ 80 + r := by
  rw [Nat.shiftLeft_eq]
  calc t * 2 ^ 80 ||| r = 2 ^ 80 * t ||| r := by rw [Nat.mul_comm]
    _ = 2 ^ 80 * t + r := (Nat.mul_add_lt_is_or hr t).symm
    _ = t * 2 ^ 80 + r := by ring

theorem unpack_timestamp {t r : Nat} (hr : r < 2 ^ 80) : (t * 2 ^ 80 + r) >>> 80 = t := by
  rw [Nat.shiftRight_eq_div_pow, Nat.mul_comm,
    Nat.mul_add_div (Nat.pos_pow_of_pos 80 (by omega)), Nat.div_eq_of_lt hr, Nat.add_zero]

theorem unpack_random {t r : Nat} (hr : r < 2 ^ 80) :
    (t * 2 ^ 80 + r) &&& max_random_biguint = r := by
  have hmr : max_random_biguint = 2 ^ 80 - 1 := by decide
  rw [hmr, Nat.and_pow_two_sub_one_eq_mod, Nat.mul_comm t, Nat.mul_add_mod, Nat.mod_eq_of_lt hr]

theorem decomp_or (v : Nat) : v = ((v >>> 80) <<< 80) ||| (v &&& max_random_biguint) := by
  have hmr : max_random_biguint = 2 ^ 80 - 1 := by decide
  rw [hmr, Nat.and_pow_two_sub_one_eq_mod, Nat.shiftRight_eq_div_pow,
    pack_or_eq (Nat.mod_lt _ (Nat.pos_pow_of_pos 80 (by omega))), Nat.mul_comm]
  exact (Nat.div_add_mod v (2 ^ 80)).symm

/-! String plumbing and character-table facts. -/

theorem string_data_mk (l : List Char) : (String.mk l).data = l := rfl

theorem string_length_mk (l : List Char) : (String.mk l).length = l.length := rfl

theorem string_mk_append (l1 l2 : List Char) :
    String.mk l1 ++ String.mk l2 = String.mk (l1 ++ l2) := rfl

theorem b62_char_facts : ∀ d ∈ List.range 62,
    b62val (b62chr d) = some d ∧ (b62chr d).isAlphanum = true := by decide

theorem b62chr_val {d : Nat} (hd : d < 62) : b62val (b62chr d) = some d :=
  (b62_char_facts d (List.mem_range.2 hd)).1

theorem b62chr_alnum {d : Nat} (hd : d < 62) : (b62chr d).isAlphanum = true :=
  (b62_char_facts d (List.mem_range.2 hd)).2

theorem b62chr_zero : b62chr 0 = '0' := by decide

theorem hex_char_facts : ∀ d ∈ List.range 16,
    hexVal (hexChr d) = some d ∧ hexContains (hexChr d) = true := by decide

theorem hexChr_val {d : Nat} (hd : d < 16) : hexVal (hexChr d) = some d :=
  (hex_char_facts d (List.mem_range.2 hd)).1

theorem hexChr_mem {d : Nat} (hd : d < 16) : hexContains (hexChr d) = true :=
  (hex_char_facts d (List.mem_range.2 hd)).2

theorem hex_mem_facts : ∀ c ∈ HEX.data,
    hexVal c = some ((hexVal c).getD 16) ∧ (hexVal c).getD 16 < 16 ∧
      hexChr ((hexVal c).getD 16) = c := by decide

theorem hexContains_iff {c : Char} : hexContains c = true ↔ c ∈ HEX.data := by
  simp [hexContains, List.contains]

/-! Behaviour of the base62 crate decode loop. -/

theorem base62_decode_core_map :
    ∀ (ds : List Nat), (∀ d ∈ ds, d < 62) →
      ∀ acc, acc * 62 ^ ds.length + ofDigitsBE 62 ds ≤ MAX_TIMEFLAKE →
        base62_decode_core (ds.map b62chr) acc
          = Except.ok (acc * 62 ^ ds.length + ofDigitsBE 62 ds) := by
  intro ds
  induction ds with
  | nil =>
    intro _ acc _
    simp [base62_decode_core, ofDigitsBE]
  | cons d ds ih =>
    intro hds acc h
    have hd : d < 62 := hds d (List.mem_cons_self d ds)
    have hds2 : ∀ x ∈ ds, x < 62 := fun x hx => hds x (List.mem_cons_of_mem d hx)
    have hExp : (acc * 62 + d) * 62 ^ ds.length + ofDigitsBE 62 ds
        = acc * 62 ^ (d :: ds).length + ofDigitsBE 62 (d :: ds) := by
      rw [ofDigitsBE_cons, List.length_cons, Nat.pow_succ]
      ring
    have hb2 : (acc * 62 + d) * 62 ^ ds.length + ofDigitsBE 62 ds ≤ MAX_TIMEFLAKE := by
      rw [hExp]; exact h
    have hpow : 1 ≤ 62 ^ ds.length := Nat.pos_pow_of_pos _ (by omega)
    have hmul : (acc * 62 + d) * 1 ≤ (acc * 62 + d) * 62 ^ ds.length :=
      Nat.mul_le_mul_left _ hpow
    have hstep : ¬ acc * 62 + d > MAX_TIMEFLAKE := by omega
    simp only [List.map_cons, base62_decode_core, b62chr_val hd]
    rw [if_neg hstep, ih hds2 (acc * 62 + d) hb2, hExp]

theorem base62_decode_ok {ds : List Nat} (hds : ∀ d ∈ ds, d < 62)
    (hne : ds ≠ []) (hle : ofDigitsBE 62 ds ≤ MAX_TIMEFLAKE) :
    base62_decode (String.mk (ds.map b62chr)) = Except.ok (ofDigitsBE 62 ds) := by
  unfold base62_decode
  rw [string_data_mk]
  have hne2 : ds.map b62chr ≠ [] := by
    cases ds with
    | nil => exact absurd rfl hne
    | cons a l => simp
  rw [if_neg hne2]
  have h := base62_decode_core_map ds hds 0 (by simpa using hle)
  simpa using h

theorem to_base62_eq {x : Timeflake} (hx : x.Valid) :
    ∃ ds : List Nat, (∀ d ∈ ds, d < 62) ∧ ds.length = 22 ∧
      ofDigitsBE 62 ds = x.int_value ∧ x.to_base62 = String.mk (ds.map b62chr) := by
  obtain ⟨hle, hbytes⟩ := hx
  have hbb : bytes_to_biguint x.bytes = x.int_value := by
    rw [hbytes]; exact (bytes16_spec hle).2
  have hds0 : ∃ ds0 : List Nat, (∀ d ∈ ds0, d < 62) ∧ ds0.length ≤ 22 ∧ 1 ≤ ds0.length ∧
      ofDigitsBE 62 ds0 = x.int_value ∧
      base62_encode x.int_value = String.mk (ds0.map b62chr) := by
    by_cases h0 : x.int_value = 0
    · refine ⟨[0], by decide, by decide, by decide, by rw [h0]; decide, ?_⟩
      rw [h0]; decide
    · refine ⟨(natDigitsLE 62 128 x.int_value).reverse, ?_, ?_, ?_, ?_, ?_⟩
      · intro d hd
        exact natDigitsLE_digit_lt (by omega) 128 x.int_value d (List.mem_reverse.1 hd)
      · rw [List.length_reverse]
        refine natDigitsLE_length_le (by omega) 128 x.int_value 22 ?_
        have : MAX_TIMEFLAKE < 62 ^ 22 := by decide
        omega
      · rw [List.length_reverse]
        have h1 := lt_length_natDigitsLE (b := 62) (by omega) 0 128 x.int_value
          (by simpa using Nat.one_le_iff_ne_zero.2 h0) (by omega)
        omega
      · rw [ofDigitsBE_reverse]
        refine ofDigitsLE_natDigitsLE (by omega) 128 x.int_value ?_
        have h22 : MAX_TIMEFLAKE < 62 ^ 22 := by decide
        have h2 : (62 : Nat) ^ 22 ≤ 62 ^ 128 := Nat.pow_le_pow_right (by omega) (by omega)
        omega
      · simp [base62_encode, h0]
  obtain ⟨ds0, hdig0, hlen0, hpos0, hval0, henc0⟩ := hds0
  refine ⟨List.replicate (22 - ds0.length) 0 ++ ds0, ?_, ?_, ?_, ?_⟩
  · intro d hd
    rcases List.mem_append.1 hd with h | h
    · have := List.eq_of_mem_replicate h; omega
    · exact hdig0 d h
  · simp only [List.length_append, List.length_replicate]; omega
  · rw [ofDigitsBE_append, ofDigitsBE_replicate_zero, hval0]; ring
  · simp only [Timeflake.to_base62, hbb, henc0, string_length_mk, List.length_map]
    by_cases hc : ds0.length < 22
    · rw [if_pos hc, string_mk_append]
      refine congrArg String.mk ?_
      rw [List.map_append, List.map_replicate, b62chr_zero]
    · rw [if_neg hc]
      have h22 : ds0.length = 22 := by omega
      refine congrArg String.mk ?_
      rw [h22]
      simp

/-! Behaviour of the hex crate codec. -/

theorem hex_decode_core_spec :
    ∀ cs : List Char, (∀ c ∈ cs, hexContains c = true) → cs.length % 2 = 0 →
      ∃ bs : List Nat, hex_decode_core cs = some bs ∧ cs.length = 2 * bs.length ∧
        (∀ x ∈ bs, x < 256) ∧
        (bs.map (fun b => [hexChr (b / 16), hexChr (b % 16)])).flatten = cs := by
  intro cs
  induction cs using hex_decode_core.induct with
  | case1 =>
    intro _ _
    exact ⟨[], rfl, by simp, by simp, by simp⟩
  | case2 c =>
    intro _ hpar
    simp at hpar
  | case3 c1 c2 rest hi lo bs0 hbs0 hv2 hv1 ih =>
    intro hall hpar
    have hc1 : c1 ∈ HEX.data := hexContains_iff.1 (hall c1 (by simp))
    have hc2 : c2 ∈ HEX.data := hexContains_iff.1 (hall c2 (by simp))
    obtain ⟨hv1f, hlt1, hchr1⟩ := hex_mem_facts c1 hc1
    obtain ⟨hv2f, hlt2, hchr2⟩ := hex_mem_facts c2 hc2
    have hhi : hi = (hexVal c1).getD 16 := by rw [hv1]; rfl
    have hlo : lo = (hexVal c2).getD 16 := by rw [hv2]; rfl
    have hrest : ∀ c ∈ rest, hexContains c = true := fun c hc => hall c (by simp [hc])
    have hpar2 : rest.length % 2 = 0 := by simp only [List.length_cons] at hpar; omega
    obtain ⟨bs, hdec, hlen, hlt, henc⟩ := ih hrest hpar2
    have hhi16 : hi < 16 := by omega
    have hlo16 : lo < 16 := by omega
    refine ⟨(hi * 16 + lo) :: bs, ?_, ?_, ?_, ?_⟩
    · simp only [hex_decode_core, hv1, hv2, hdec]
    · simp only [List.length_cons]; omega
    · intro x hx
      rcases List.mem_cons.1 hx with h | h
      · subst h; omega
      · exact hlt x h
    · simp only [List.map_cons, List.flatten_cons]
      have e1 : (hi * 16 + lo) / 16 = hi := by
        rw [Nat.mul_comm, Nat.mul_add_div (by omega), Nat.div_eq_of_lt hlo16, Nat.add_zero]
      have e2 : (hi * 16 + lo) % 16 = lo := by
        rw [Nat.mul_comm, Nat.mul_add_mod, Nat.mod_eq_of_lt hlo16]
      rw [e1, e2, hhi, hlo, hchr1, hchr2, henc]
      rfl
  | case4 c1 c2 rest hfail ih =>
    intro hall hpar
    have hc1 : c1 ∈ HEX.data := hexContains_iff.1 (hall c1 (by simp))
    have hc2 : c2 ∈ HEX.data := hexContains_iff.1 (hall c2 (by simp))
    obtain ⟨hv1f, _, _⟩ := hex_mem_facts c1 hc1
    obtain ⟨hv2f, _, _⟩ := hex_mem_facts c2 hc2
    have hrest : ∀ c ∈ rest, hexContains c = true := fun c hc => hall c (by simp [hc])
    have hpar2 : rest.length % 2 = 0 := by simp only [List.length_cons] at hpar; omega
    obtain ⟨bs, hdec, _, _, _⟩ := ih hrest hpar2
    exact (hfail _ _ bs hv1f hv2f hdec).elim

theorem hex_encode_data_length :
    ∀ bytes : List Nat,
      ((bytes.map (fun b => [hexChr (b / 16), hexChr (b % 16)])).flatten).length
        = 2 * bytes.length := by
  intro bytes
  induction bytes with
  | nil => rfl
  | cons b bs ih =>
    simp only [List.map_cons, List.flatten_cons, List.length_append, ih, List.length_cons]
    simp
    omega

theorem hex_encode_all_hex :
    ∀ bytes : List Nat, (∀ b ∈ bytes, b < 256) →
      ∀ c ∈ (bytes.map (fun b => [hexChr (b / 16), hexChr (b % 16)])).flatten,
        hexContains c = true := by
  intro bytes
  induction bytes with
  | nil => intro _ c hc; simp at hc
  | cons b bs ih =>
    intro hall c hc
    simp only [List.map_cons, List.flatten_cons, List.mem_append] at hc
    rcases hc with hc | hc
    · have hb : b < 256 := hall b (List.mem_cons_self b bs)
      rcases List.mem_cons.1 hc with h | h
      · subst h; exact hexChr_mem (by omega)
      · rcases List.mem_cons.1 h with h2 | h2
        · subst h2; exact hexChr_mem (Nat.mod_lt _ (by omega))
        · simp at h2
    · exact ih (fun x hx => hall x (List.mem_cons_of_mem _ hx)) c hc

theorem hex_decode_encode :
    ∀ bytes : List Nat, (∀ b ∈ bytes, b < 256) →
      hex_decode_core ((bytes.map (fun b => [hexChr (b / 16), hexChr (b % 16)])).flatten)
        = some bytes := by
  intro bytes
  induction bytes with
  | nil => intro _; rfl
  | cons b bs ih =>
    intro hall
    have hb : b < 256 := hall b (List.mem_cons_self b bs)
    simp only [List.map_cons, List.flatten_cons, List.cons_append, List.nil_append]
    simp only [hex_decode_core, hexChr_val (show b / 16 < 16 by omega),
      hexChr_val (show b % 16 < 16 from Nat.mod_lt _ (by omega)),
      ih (fun x hx => hall x (List.mem_cons_of_mem _ hx))]
    have hbb : b / 16 * 16 + b % 16 = b := by omega
    rw [hbb]

/-! Constructor behaviour on valid inputs, and the encode/decode round trips. -/

theorem max_tf_eq : max_timeflake_biguint = MAX_TIMEFLAKE := rfl

theorem max_r_eq : max_random_biguint = MAX_RANDOM := rfl

theorem from_bytes_ok {l : List Nat} (hl : isBytes16 l) :
    Timeflake.from_bytes l = Except.ok ⟨l, bytes_to_biguint l⟩ := by
  have hle := bytes_to_biguint_le hl
  have hm := max_tf_eq
  simp only [Timeflake.from_bytes]
  rw [if_neg (by omega)]

theorem from_bytes_valid {l : List Nat} (hl : isBytes16 l) :
    Timeflake.from_bytes l = Except.ok ⟨l, bytes_to_biguint l⟩ ∧
      Timeflake.Valid ⟨l, bytes_to_biguint l⟩ := by
  refine ⟨from_bytes_ok hl, bytes_to_biguint_le hl, ?_⟩
  exact (bytes16_of_value hl).symm

theorem bytes16_valid {n : Nat} (hn : n ≤ MAX_TIMEFLAKE) :
    Timeflake.Valid ⟨bytes16 n, n⟩ := ⟨hn, rfl⟩

theorem valid_invariants {x : Timeflake} (hx : x.Valid) : Invariants x := by
  obtain ⟨hle, hbytes⟩ := hx
  refine ⟨hle, ?_, ?_, decomp_or x.int_value, hbytes⟩
  · rw [Nat.shiftRight_eq_div_pow]
    have h1 : x.int_value / 2 ^ 80 ≤ MAX_TIMEFLAKE / 2 ^ 80 := Nat.div_le_div_right hle
    have h2 : MAX_TIMEFLAKE / 2 ^ 80 = MAX_TIMESTAMP := by decide
    omega
  · show x.int_value &&& max_random_biguint ≤ MAX_RANDOM
    have hmr : max_random_biguint = 2 ^ 80 - 1 := by decide
    rw [hmr, Nat.and_pow_two_sub_one_eq_mod]
    have h1 := Nat.mod_lt x.int_value (y := 2 ^ 80) (by norm_num)
    have h2 : MAX_RANDOM = 2 ^ 80 - 1 := by decide
    omega

theorem from_components_spec {t r : Nat} (ht : t ≤ MAX_TIMESTAMP) (hr : r ≤ MAX_RANDOM) :
    Timeflake.from_components t r
      = Except.ok ⟨bytes16 (t * 2 ^ 80 + r), t * 2 ^ 80 + r⟩ := by
  have hmr := max_r_eq
  have hr80 : r < 2 ^ 80 := by
    have : MAX_RANDOM = 2 ^ 80 - 1 := by decide
    omega
  have hint : (t <<< 80) ||| r = t * 2 ^ 80 + r := pack_or_eq hr80
  have hle : t * 2 ^ 80 + r ≤ MAX_TIMEFLAKE := by
    have h1 : t * 2 ^ 80 ≤ MAX_TIMESTAMP * 2 ^ 80 := Nat.mul_le_mul_right _ ht
    have h2 : MAX_TIMESTAMP * 2 ^ 80 + MAX_RANDOM = MAX_TIMEFLAKE := by decide
    omega
  simp only [Timeflake.from_components]
  rw [if_neg (by omega), if_neg (by omega), hint, biguint_to_bytes_ok hle]

theorem from_base62_to_base62 {x : Timeflake} (hx : x.Valid) :
    Timeflake.from_base62 x.to_base62 = Except.ok x := by
  obtain ⟨ds, hdig, hlen, hval, henc⟩ := to_base62_eq hx
  have hne : ds ≠ [] := by intro h; rw [h] at hlen; simp at hlen
  have hle : ofDigitsBE 62 ds ≤ MAX_TIMEFLAKE := by rw [hval]; exact hx.1
  have hdec := base62_decode_ok hdig hne hle
  have hmax := max_tf_eq
  rw [henc]
  simp only [Timeflake.from_base62, hdec, hval]
  rw [if_neg (by have := hx.1; omega), biguint_to_bytes_ok hx.1, ← hx.2]

theorem from_str_to_base62 {x : Timeflake} (hx : x.Valid) :
    Timeflake.from_str x.to_base62 = Except.ok x := by
  obtain ⟨ds, hdig, hlen, hval, henc⟩ := to_base62_eq hx
  have hdata : (x.to_base62).data = ds.map b62chr := by rw [henc]
  have hlen22 : (x.to_base62).data.length = 22 := by rw [hdata]; simp [hlen]
  have halnum : (x.to_base62).data.all Char.isAlphanum = true := by
    rw [hdata, List.all_eq_true]
    intro c hc
    obtain ⟨d, hd, rfl⟩ := List.mem_map.1 hc
    exact b62chr_alnum (hdig d hd)
  simp only [Timeflake.from_str]
  rw [if_neg (by rw [hlen22]; rintro ⟨h, _⟩; omega), if_pos ⟨by omega, halnum⟩]
  exact from_base62_to_base62 hx

theorem to_hex_data (x : Timeflake) :
    (x.to_hex).data = (x.bytes.map (fun b => [hexChr (b / 16), hexChr (b % 16)])).flatten := rfl

theorem from_str_to_hex {x : Timeflake} (hx : x.Valid) :
    Timeflake.from_str x.to_hex = Except.ok x := by
  have hb16 : isBytes16 x.bytes := by rw [hx.2]; exact (bytes16_spec hx.1).1
  obtain ⟨hblen, hbdig⟩ := hb16
  have hlen32 : (x.to_hex).data.length = 32 := by
    rw [to_hex_data, hex_encode_data_length, hblen]
  have hallhex : (x.to_hex).data.all hexContains = true := by
    rw [to_hex_data, List.all_eq_true]
    exact hex_encode_all_hex x.bytes hbdig
  have hdec : hex_decode x.to_hex = some x.bytes := by
    show hex_decode_core (x.to_hex).data = some x.bytes
    rw [to_hex_data]
    exact hex_decode_encode x.bytes hbdig
  simp only [Timeflake.from_str]
  rw [if_pos ⟨hlen32, hallhex⟩]
  simp only [hdec]
  rw [if_neg (by simp [hblen]), from_bytes_ok ⟨hblen, hbdig⟩]
  have hv : bytes_to_biguint x.bytes = x.int_value := by
    rw [hx.2]; exact (bytes16_spec hx.1).2
  rw [hv]

theorem from_bytes_to_bytes {x : Timeflake} (hx : x.Valid) :
    Timeflake.from_bytes x.to_bytes = Except.ok x := by
  have hb16 : isBytes16 x.bytes := by rw [hx.2]; exact (bytes16_spec hx.1).1
  have hv : bytes_to_biguint x.bytes = x.int_value := by
    rw [hx.2]; exact (bytes16_spec hx.1).2
  show Timeflake.from_bytes x.bytes = Except.ok x
  rw [from_bytes_ok hb16, hv]

theorem from_bigint_to_bigint {x : Timeflake} (hx : x.Valid) :
    Timeflake.from_bigint x.to_bigint = Except.ok x := by
  show Timeflake.from_bigint x.int_value = Except.ok x
  simp only [Timeflake.from_bigint, biguint_to_bytes_ok hx.1]
  rw [← hx.2]
  exact from_bytes_to_bytes hx

/-! Behaviour of the constructors on arbitrary (possibly invalid) inputs. -/

theorem pack_le {t r : Nat} (ht : t ≤ MAX_TIMESTAMP) (hr : r ≤ MAX_RANDOM) :
    t * 2 ^ 80 + r ≤ MAX_TIMEFLAKE := by
  have h1 : t * 2 ^ 80 ≤ MAX_TIMESTAMP * 2 ^ 80 := Nat.mul_le_mul_right _ ht
  have h2 : MAX_TIMESTAMP * 2 ^ 80 + MAX_RANDOM = MAX_TIMEFLAKE := by decide
  omega

theorem base62_decode_core_ok_le :
    ∀ (cs : List Char) (acc v : Nat), acc ≤ MAX_TIMEFLAKE →
      base62_decode_core cs acc = Except.ok v → v ≤ MAX_TIMEFLAKE := by
  intro cs
  induction cs with
  | nil =>
    intro acc v hacc h
    simp only [base62_decode_core, Except.ok.injEq] at h
    omega
  | cons c cs ih =>
    intro acc v hacc h
    rcases hv : b62val c with _ | d
    · simp only [base62_decode_core, hv] at h
      exact absurd h (by simp)
    · simp only [base62_decode_core, hv] at h
      split at h
      · exact absurd h (by simp)
      next hle2 => exact ih _ v (by omega) h

theorem base62_decode_core_ok_val :
    ∀ (cs : List Char) (acc v : Nat),
      base62_decode_core cs acc = Except.ok v →
        v = acc * 62 ^ cs.length + ofDigitsBE 62 (cs.map (fun c => (b62val c).getD 0)) := by
  intro cs
  induction cs with
  | nil =>
    intro acc v h
    simp only [base62_decode_core, Except.ok.injEq] at h
    simp [ofDigitsBE, h]
  | cons c cs ih =>
    intro acc v h
    rcases hv : b62val c with _ | d
    · simp only [base62_decode_core, hv] at h
      exact absurd h (by simp)
    · simp only [base62_decode_core, hv] at h
      split at h
      · exact absurd h (by simp)
      next hle2 =>
        rw [ih _ v h]
        simp only [List.map_cons, ofDigitsBE_cons, List.length_cons, List.length_map, hv,
          Option.getD_some, Nat.pow_succ]
        ring

theorem base62_decode_core_err_of_invalid :
    ∀ (cs : List Char), (∃ c ∈ cs, b62val c = none) →
      ∀ acc, ∃ e, base62_decode_core cs acc = Except.error e := by
  intro cs
  induction cs with
  | nil =>
    rintro ⟨c, hc, _⟩ acc
    simp at hc
  | cons c cs ih =>
    rintro ⟨c0, hc0, hv0⟩ acc
    rcases List.mem_cons.1 hc0 with rfl | hmem
    · exact ⟨DecodeErr.InvalidByte, by simp [base62_decode_core, hv0]⟩
    · rcases hvc : b62val c with _ | d
      · exact ⟨DecodeErr.InvalidByte, by simp [base62_decode_core, hvc]⟩
      · by_cases hb : acc * 62 + d > MAX_TIMEFLAKE
        · exact ⟨DecodeErr.Overflow, by simp [base62_decode_core, hvc, hb]⟩
        · obtain ⟨e, he⟩ := ih ⟨c0, hmem, hv0⟩ (acc * 62 + d)
          exact ⟨e, by simp [base62_decode_core, hvc, hb, he]⟩

theorem base62_decode_err_of_invalid {s : String} (h : ∃ c ∈ s.data, b62val c = none) :
    ∃ e, base62_decode s = Except.error e := by
  unfold base62_decode
  by_cases hemp : s.data = []
  · exact ⟨DecodeErr.EmptyInput, by rw [if_pos hemp]⟩
  · rw [if_neg hemp]
    exact base62_decode_core_err_of_invalid s.data h 0

theorem base62_decode_err_of_overflow {s : String}
    (hbig : ofDigitsBE 62 (s.data.map (fun c => (b62val c).getD 0)) > MAX_TIMEFLAKE) :
    ∃ e, base62_decode s = Except.error e := by
  unfold base62_decode
  by_cases hemp : s.data = []
  · rw [hemp] at hbig
    simp [ofDigitsBE] at hbig
  · rw [if_neg hemp]
    cases h : base62_decode_core s.data 0 with
    | error e => exact ⟨e, rfl⟩
    | ok v =>
      have hval := base62_decode_core_ok_val s.data 0 v h
      have hle := base62_decode_core_ok_le s.data 0 v (Nat.zero_le _) h
      rw [hval] at hle
      simp only [Nat.zero_mul, Nat.zero_add] at hle
      omega

theorem from_base62_err {s : String} (h : ∃ e, base62_decode s = Except.error e) :
    Timeflake.from_base62 s = Except.error (Error.ParseError s "Invalid base62 encoding") := by
  obtain ⟨e, he⟩ := h
  simp [Timeflake.from_base62, he]

theorem base62_decode_ok_le {s : String} {v : Nat} (h : base62_decode s = Except.ok v) :
    v ≤ MAX_TIMEFLAKE := by
  unfold base62_decode at h
  by_cases hemp : s.data = []
  · rw [if_pos hemp] at h
    exact absurd h (by simp)
  · rw [if_neg hemp] at h
    exact base62_decode_core_ok_le s.data 0 v (Nat.zero_le _) h

theorem from_base62_valid {s : String} {f : Timeflake}
    (h : Timeflake.from_base62 s = Except.ok f) : f.Valid := by
  cases hdec : base62_decode s with
  | error e =>
    rw [from_base62_err ⟨e, hdec⟩] at h
    exact absurd h (by simp)
  | ok v =>
    have hle := base62_decode_ok_le hdec
    have hm := max_tf_eq
    simp only [Timeflake.from_base62, hdec] at h
    rw [if_neg (by omega), biguint_to_bytes_ok hle] at h
    simp only [Except.ok.injEq] at h
    exact h ▸ bytes16_valid hle

theorem from_components_valid {t r : Nat} {f : Timeflake}
    (h : Timeflake.from_components t r = Except.ok f) : f.Valid := by
  have hmr := max_r_eq
  by_cases hts : t > MAX_TIMESTAMP
  · rw [show Timeflake.from_components t r = Except.error (Error.InvalidTimestamp t) from by
      simp [Timeflake.from_components, hts]] at h
    exact absurd h (by simp)
  · by_cases hrr : r > max_random_biguint
    · rw [show Timeflake.from_components t r = Except.error Error.InvalidRandom from by
        simp [Timeflake.from_components, hts, hrr]] at h
      exact absurd h (by simp)
    · rw [from_components_spec (by omega) (by omega)] at h
      simp only [Except.ok.injEq] at h
      exact h ▸ bytes16_valid (pack_le (by omega) (by omega))

theorem from_bigint_spec {v : Nat} (hv : v ≤ MAX_TIMEFLAKE) :
    Timeflake.from_bigint v = Except.ok ⟨bytes16 v, v⟩ := by
  simp only [Timeflake.from_bigint, biguint_to_bytes_ok hv]
  rw [from_bytes_ok (bytes16_spec hv).1, (bytes16_spec hv).2]

theorem from_bigint_err {v : Nat} (hv : v > MAX_TIMEFLAKE) :
    ∃ msg, Timeflake.from_bigint v = Except.error (Error.ConversionError msg) := by
  have h0 : v ≠ 0 := by
    have : (0 : Nat) ≤ MAX_TIMEFLAKE := Nat.zero_le _
    omega
  have hlen : 16 < (to_bytes_be v).length := by
    simp only [to_bytes_be, if_neg h0, List.length_reverse]
    refine lt_length_natDigitsLE (by omega) 16 128 v ?_ (by omega)
    have : (256 : Nat) ^ 16 = MAX_TIMEFLAKE + 1 := by decide
    omega
  refine ⟨"BigUint is too large to fit in 16 bytes (got "
    ++ toString (to_bytes_be v).length ++ " bytes)", ?_⟩
  simp only [Timeflake.from_bigint, biguint_to_bytes]
  rw [if_pos (by omega)]

theorem from_bigint_valid {v : Nat} {f : Timeflake}
    (h : Timeflake.from_bigint v = Except.ok f) : f.Valid := by
  by_cases hv : v ≤ MAX_TIMEFLAKE
  · rw [from_bigint_spec hv] at h
    simp only [Except.ok.injEq] at h
    exact h ▸ bytes16_valid hv
  · obtain ⟨msg, hmsg⟩ := from_bigint_err (v := v) (by omega)
    rw [hmsg] at h
    exact absurd h (by simp)

theorem from_bytes_valid_of_ok {l : List Nat} {f : Timeflake} (hl : isBytes16 l)
    (h : Timeflake.from_bytes l = Except.ok f) : f.Valid := by
  rw [from_bytes_ok hl] at h
  simp only [Except.ok.injEq] at h
  exact h ▸ (from_bytes_valid hl).2

theorem from_str_valid {s : String} {f : Timeflake}
    (h : Timeflake.from_str s = Except.ok f) : f.Valid := by
  unfold Timeflake.from_str at h
  split at h
  case isTrue hcond =>
    cases hdec : hex_decode s with
    | none =>
      simp only [hdec] at h
      exact absurd h (by simp)
    | some bytes =>
      simp only [hdec] at h
      split at h
      · exact absurd h (by simp)
      case isFalse hlen16 =>
        obtain ⟨bs, hdec2, hlen2, hdig2, _⟩ :=
          hex_decode_core_spec s.data (List.all_eq_true.1 hcond.2) (by rw [hcond.1])
        have heq : hex_decode s = some bs := hdec2
        rw [hdec] at heq
        have hbs : bytes = bs := Option.some.inj heq
        subst hbs
        have hb16 : isBytes16 bytes := ⟨by omega, hdig2⟩
        exact from_bytes_valid_of_ok hb16 h
  case isFalse =>
    split at h
    · exact from_base62_valid h
    · exact absurd h (by simp)

theorem timestamp_some {x : Timeflake} (hx : x.Valid) :
    x.timestamp = some (x.int_value >>> 80) := by
  have hinv := valid_invariants hx
  have h64 : MAX_TIMESTAMP < 2 ^ 64 := by decide
  have hlt : x.int_value >>> 80 < 2 ^ 64 := by
    have := hinv.2.1
    omega
  show toU64 (x.int_value >>> 80) = some (x.int_value >>> 80)
  unfold toU64
  rw [if_pos hlt]

/-! The claims. -/

/-- C1: for every valid Timeflake x, every encoding round-trips: the base62
string parses back to x (through from_str and through from_base62), the hex
string parses back to x through from_str, and to_bytes and to_bigint invert
through from_bytes and from_bigint. -/
theorem C1_roundtrip (x : Timeflake) (hx : x.Valid) :
    Timeflake.from_str x.to_base62 = Except.ok x ∧
    Timeflake.from_base62 x.to_base62 = Except.ok x ∧
    Timeflake.from_str x.to_hex = Except.ok x ∧
    Timeflake.from_bytes x.to_bytes = Except.ok x ∧
    Timeflake.from_bigint x.to_bigint = Except.ok x :=
  ⟨from_str_to_base62 hx, from_base62_to_base62 hx, from_str_to_hex hx,
    from_bytes_to_bytes hx, from_bigint_to_bigint hx⟩

/-- Witness for C1 at the concrete test-vector flake. -/
theorem C1_roundtrip_witness :
    demoFlake.Valid ∧
    (Timeflake.from_str demoFlake.to_base62 = Except.ok demoFlake ∧
     Timeflake.from_base62 demoFlake.to_base62 = Except.ok demoFlake ∧
     Timeflake.from_str demoFlake.to_hex = Except.ok demoFlake ∧
     Timeflake.from_bytes demoFlake.to_bytes = Except.ok demoFlake ∧
     Timeflake.from_bigint demoFlake.to_bigint = Except.ok demoFlake) :=
  ⟨by decide, C1_roundtrip demoFlake (by decide)⟩

/-- C2 counterexample: with both arguments out of range, from_components
returns the timestamp error even though random exceeds MAX_RANDOM, so the
stated iff for the random error does not hold independently of the timestamp. -/
theorem C2_counterexample :
    MAX_RANDOM + 1 > MAX_RANDOM ∧
    Timeflake.from_components (MAX_TIMESTAMP + 1) (MAX_RANDOM + 1)
      = Except.error (Error.InvalidTimestamp (MAX_TIMESTAMP + 1)) ∧
    Timeflake.from_components (MAX_TIMESTAMP + 1) (MAX_RANDOM + 1)
      ≠ Except.error Error.InvalidRandom := by decide

/-- C2 (amended): from_components fails with InvalidTimestamp iff the
timestamp is out of range (independently of random), and fails with
InvalidRandom iff the timestamp is in range and random is out of range: the
timestamp check runs first, so the random iff is conditional on it. -/
theorem C2_range_enforcement (t r : Nat) :
    (Timeflake.from_components t r = Except.error (Error.InvalidTimestamp t)
      ↔ t > MAX_TIMESTAMP) ∧
    (Timeflake.from_components t r = Except.error Error.InvalidRandom
      ↔ t ≤ MAX_TIMESTAMP ∧ r > MAX_RANDOM) := by
  have hmr := max_r_eq
  by_cases hts : t > MAX_TIMESTAMP
  · rw [show Timeflake.from_components t r = Except.error (Error.InvalidTimestamp t) from by
      simp [Timeflake.from_components, hts]]
    refine ⟨⟨fun _ => hts, fun _ => rfl⟩, ⟨fun h => absurd h (by simp), fun h => ?_⟩⟩
    omega
  · by_cases hrr : r > MAX_RANDOM
    · rw [show Timeflake.from_components t r = Except.error Error.InvalidRandom from by
        simp [Timeflake.from_components, hts, hmr, hrr]]
      refine ⟨⟨fun h => absurd h (by simp), fun h => absurd h hts⟩,
        ⟨fun _ => ⟨by omega, hrr⟩, fun _ => rfl⟩⟩
    · rw [from_components_spec (by omega) (by omega)]
      exact ⟨⟨fun h => absurd h (by simp), fun h => absurd h hts⟩,
        ⟨fun h => absurd h (by simp), fun h => absurd h.2 hrr⟩⟩

/-- C3: for in-range components, from_components succeeds and the accessors
return exactly the packed components. -/
theorem C3_packing (t r : Nat) (ht : t ≤ MAX_TIMESTAMP) (hr : r ≤ MAX_RANDOM) :
    ∃ f : Timeflake, Timeflake.from_components t r = Except.ok f ∧
      f.timestamp = some t ∧ f.random = r := by
  have hr80 : r < 2 ^ 80 := by
    have : MAX_RANDOM = 2 ^ 80 - 1 := by decide
    omega
  have h64 : MAX_TIMESTAMP < 2 ^ 64 := by decide
  refine ⟨⟨bytes16 (t * 2 ^ 80 + r), t * 2 ^ 80 + r⟩, from_components_spec ht hr, ?_, ?_⟩
  · show toU64 ((t * 2 ^ 80 + r) >>> 80) = some t
    rw [unpack_timestamp hr80]
    unfold toU64
    rw [if_pos (by omega)]
  · show (t * 2 ^ 80 + r) &&& max_random_biguint = r
    exact unpack_random hr80

/-- Witness for C3 at the spec scenario from_components(123, 0). -/
theorem C3_packing_witness :
    123 ≤ MAX_TIMESTAMP ∧ 0 ≤ MAX_RANDOM ∧
    ∃ f : Timeflake, Timeflake.from_components 123 0 = Except.ok f ∧
      f.timestamp = some 123 ∧ f.random = 0 :=
  ⟨by decide, by decide, C3_packing 123 0 (by decide) (by decide)⟩

/-- C4: every successful construction path (from_bytes on a 16-byte array,
from_components, from_base62, from_bigint, from_str) returns an instance
satisfying all data-model invariants. -/
theorem C4_invariants :
    (∀ (l : List Nat) (f : Timeflake), isBytes16 l →
        Timeflake.from_bytes l = Except.ok f → Invariants f) ∧
    (∀ (t r : Nat) (f : Timeflake),
        Timeflake.from_components t r = Except.ok f → Invariants f) ∧
    (∀ (s : String) (f : Timeflake),
        Timeflake.from_base62 s = Except.ok f → Invariants f) ∧
    (∀ (v : Nat) (f : Timeflake),
        Timeflake.from_bigint v = Except.ok f → Invariants f) ∧
    (∀ (s : String) (f : Timeflake),
        Timeflake.from_str s = Except.ok f → Invariants f) :=
  ⟨fun _ _ hl h => valid_invariants (from_bytes_valid_of_ok hl h),
   fun _ _ _ h => valid_invariants (from_components_valid h),
   fun _ _ h => valid_invariants (from_base62_valid h),
   fun _ _ h => valid_invariants (from_bigint_valid h),
   fun _ _ h => valid_invariants (from_str_valid h)⟩

/-- Witness for C4 on the from_bytes path at the concrete test vector. -/
theorem C4_invariants_witness :
    isBytes16 demoBytes ∧ Timeflake.from_bytes demoBytes = Except.ok demoFlake ∧
      Invariants demoFlake :=
  ⟨by decide, by decide, C4_invariants.1 demoBytes demoFlake (by decide) (by decide)⟩

/-- C5: the order on Timeflakes is the order on int_value: a strictly smaller
timestamp forces a smaller flake whatever the random parts; equal timestamps
compare by the random components; equality is exactly 128-bit equality. -/
theorem C5_ordering (a b : Timeflake) (ha : a.Valid) (hb : b.Valid) :
    (∀ ta tb, a.timestamp = some ta → b.timestamp = some tb → ta < tb →
       Timeflake.lt a b) ∧
    (a.timestamp = b.timestamp → Timeflake.cmp a b = compare a.random b.random) ∧
    (Timeflake.eq a b = true ↔ a.int_value = b.int_value) := by
  refine ⟨?_, ?_, ?_⟩
  · intro ta tb hta htb hlt
    rw [timestamp_some ha] at hta
    rw [timestamp_some hb] at htb
    have h1 : ta = a.int_value >>> 80 := (Option.some.inj hta).symm
    have h2 : tb = b.int_value >>> 80 := (Option.some.inj htb).symm
    subst h1; subst h2
    rw [Nat.shiftRight_eq_div_pow, Nat.shiftRight_eq_div_pow] at hlt
    have hab : a.int_value < b.int_value := Nat.lt_of_div_lt_div hlt
    show compare a.int_value b.int_value = Ordering.lt
    exact Nat.compare_eq_lt.2 hab
  · intro h
    rw [timestamp_some ha, timestamp_some hb] at h
    have hsh : a.int_value >>> 80 = b.int_value >>> 80 := Option.some.inj h
    have hmr : max_random_biguint = 2 ^ 80 - 1 := by decide
    have hra : a.random = a.int_value % 2 ^ 80 := by
      show a.int_value &&& max_random_biguint = _
      rw [hmr, Nat.and_pow_two_sub_one_eq_mod]
    have hrb : b.random = b.int_value % 2 ^ 80 := by
      show b.int_value &&& max_random_biguint = _
      rw [hmr, Nat.and_pow_two_sub_one_eq_mod]
    show compare a.int_value b.int_value = _
    rw [hra, hrb]
    rw [Nat.shiftRight_eq_div_pow, Nat.shiftRight_eq_div_pow] at hsh
    have e1 := Nat.div_add_mod a.int_value (2 ^ 80)
    have e2 := Nat.div_add_mod b.int_value (2 ^ 80)
    rcases Nat.lt_trichotomy (a.int_value % 2 ^ 80) (b.int_value % 2 ^ 80) with hc | hc | hc
    · rw [Nat.compare_eq_lt.2 (by omega), (Nat.compare_eq_lt (a := a.int_value % 2 ^ 80)).2 hc]
    · rw [Nat.compare_eq_eq.2 (by omega), (Nat.compare_eq_eq (a := a.int_value % 2 ^ 80)).2 hc]
    · rw [Nat.compare_eq_gt.2 (by omega), (Nat.compare_eq_gt (a := a.int_value % 2 ^ 80)).2 hc]
  · show (a.int_value == b.int_value) = true ↔ _
    simp

/-- Witness for C5 at the zero flake and the test-vector flake. -/
theorem C5_ordering_witness :
    zeroFlake.Valid ∧ demoFlake.Valid ∧
    ((∀ ta tb, zeroFlake.timestamp = some ta → demoFlake.timestamp = some tb → ta < tb →
       Timeflake.lt zeroFlake demoFlake) ∧
     (zeroFlake.timestamp = demoFlake.timestamp →
       Timeflake.cmp zeroFlake demoFlake = compare zeroFlake.random demoFlake.random) ∧
     (Timeflake.eq zeroFlake demoFlake = true ↔ zeroFlake.int_value = demoFlake.int_value)) :=
  ⟨by decide, by decide, C5_ordering zeroFlake demoFlake (by decide) (by decide)⟩

/-- C6: a 32-character string of lowercase hex digits always parses as hex
(the parsed flake re-encodes to the same string, so the base62 reading is
never used), and a string matching neither format yields the parse error. -/
theorem C6_disambiguation (s : String) :
    (s.data.length = 32 → (∀ c ∈ s.data, hexContains c = true) →
      ∃ f : Timeflake, Timeflake.from_str s = Except.ok f ∧ f.to_hex = s) ∧
    (¬ (s.data.length = 32 ∧ s.data.all hexContains = true) →
     ¬ (s.data.length ≤ 22 ∧ s.data.all Char.isAlphanum = true) →
      Timeflake.from_str s = Except.error (Error.ParseError s
        "String must be either a 32-character hex string or a base62 string")) := by
  constructor
  · intro h32 hall
    obtain ⟨bs, hdec2, hlen2, hdig2, henc2⟩ :=
      hex_decode_core_spec s.data hall (by rw [h32])
    have hb16 : isBytes16 bs := ⟨by omega, hdig2⟩
    have hdec : hex_decode s = some bs := hdec2
    refine ⟨⟨bs, bytes_to_biguint bs⟩, ?_, ?_⟩
    · simp only [Timeflake.from_str]
      rw [if_pos ⟨h32, List.all_eq_true.2 hall⟩]
      simp only [hdec]
      rw [if_neg (by simp [hb16.1])]
      exact from_bytes_ok hb16
    · show String.mk ((bs.map (fun b => [hexChr (b / 16), hexChr (b % 16)])).flatten) = s
      rw [henc2]
  · intro h1 h2
    simp only [Timeflake.from_str]
    rw [if_neg h1, if_neg h2]

/-- Witness for C6: the test-vector hex string parses as hex, and a
one-character non-alphanumeric string takes the terminal parse error. -/
theorem C6_disambiguation_witness :
    (hexDemoStr.data.length = 32 ∧ (∀ c ∈ hexDemoStr.data, hexContains c = true) ∧
      ∃ f : Timeflake, Timeflake.from_str hexDemoStr = Except.ok f ∧ f.to_hex = hexDemoStr) ∧
    (¬ (bangStr.data.length = 32 ∧ bangStr.data.all hexContains = true) ∧
     ¬ (bangStr.data.length ≤ 22 ∧ bangStr.data.all Char.isAlphanum = true) ∧
     Timeflake.from_str bangStr = Except.error (Error.ParseError bangStr
       "String must be either a 32-character hex string or a base62 string")) :=
  ⟨⟨by decide, by decide, (C6_disambiguation hexDemoStr).1 (by decide) (by decide)⟩,
   ⟨by decide, by decide, (C6_disambiguation bangStr).2 (by decide) (by decide)⟩⟩

/-- C7: for every valid Timeflake, including zero, the base62 encoding has
length exactly 22 and the hex encoding length exactly 32. -/
theorem C7_fixed_width (x : Timeflake) (hx : x.Valid) :
    (x.to_base62).length = 22 ∧ (x.to_hex).length = 32 := by
  obtain ⟨ds, hdig, hlen, hval, henc⟩ := to_base62_eq hx
  constructor
  · rw [henc, string_length_mk, List.length_map, hlen]
  · have hb16 : isBytes16 x.bytes := by rw [hx.2]; exact (bytes16_spec hx.1).1
    show (x.to_hex).data.length = 32
    rw [to_hex_data, hex_encode_data_length, hb16.1]

/-- Witness for C7 at the all-zero flake. -/
theorem C7_fixed_width_witness :
    zeroFlake.Valid ∧ (zeroFlake.to_base62).length = 22 ∧ (zeroFlake.to_hex).length = 32 :=
  ⟨by decide, C7_fixed_width zeroFlake (by decide)⟩

/-- C8 counterexample: the in-alphabet out-of-range input (22 times `z`, whose
base62 value exceeds 2^128 - 1) produces exactly the same ParseError reason
"Invalid base62 encoding" as the invalid-character input "!": the two failure
cases are not distinguished, and neither produces the range error InvalidFlake. -/
theorem C8_counterexample :
    Timeflake.from_base62 zzStr
      = Except.error (Error.ParseError zzStr "Invalid base62 encoding") ∧
    Timeflake.from_base62 bangStr
      = Except.error (Error.ParseError bangStr "Invalid base62 encoding") ∧
    ofDigitsBE 62 (zzStr.data.map (fun c => (b62val c).getD 0)) > MAX_TIMEFLAKE ∧
    (∀ c ∈ zzStr.data, (b62val c).isSome) ∧
    (∃ c ∈ bangStr.data, b62val c = none) := by decide

/-- C8 (amended): from_base62 fails on every string containing an
out-of-alphabet character and on every string whose decoded value exceeds
2^128 - 1, but both failures produce the same ParseError with reason "Invalid
base62 encoding"; the InvalidFlake error is never returned. -/
theorem C8_from_base62_failures (s : String) :
    ((∃ c ∈ s.data, b62val c = none) →
      Timeflake.from_base62 s
        = Except.error (Error.ParseError s "Invalid base62 encoding")) ∧
    (ofDigitsBE 62 (s.data.map (fun c => (b62val c).getD 0)) > MAX_TIMEFLAKE →
      Timeflake.from_base62 s
        = Except.error (Error.ParseError s "Invalid base62 encoding")) ∧
    Timeflake.from_base62 s ≠ Except.error Error.InvalidFlake := by
  refine ⟨fun h => from_base62_err (base62_decode_err_of_invalid h),
    fun h => from_base62_err (base62_decode_err_of_overflow h), ?_⟩
  cases hdec : base62_decode s with
  | error e =>
    rw [from_base62_err ⟨e, hdec⟩]
    simp
  | ok v =>
    have hle := base62_decode_ok_le hdec
    have hm := max_tf_eq
    simp only [Timeflake.from_base62, hdec]
    rw [if_neg (by omega), biguint_to_bytes_ok hle]
    simp

/-- Witness for C8 at the two concrete failing inputs. -/
theorem C8_from_base62_failures_witness :
    ((∃ c ∈ bangStr.data, b62val c = none) ∧
      Timeflake.from_base62 bangStr
        = Except.error (Error.ParseError bangStr "Invalid base62 encoding")) ∧
    (ofDigitsBE 62 (zzStr.data.map (fun c => (b62val c).getD 0)) > MAX_TIMEFLAKE ∧
      Timeflake.from_base62 zzStr
        = Except.error (Error.ParseError zzStr "Invalid base62 encoding")) :=
  ⟨⟨by decide, (C8_from_base62_failures bangStr).1 (by decide)⟩,
   ⟨by decide, (C8_from_base62_failures zzStr).2.1 (by decide)⟩⟩

/-- C9: the concrete scenario: the bytes 01 6f a9 36 bf f0 99 7a 0a 3c 42 85
48 fe e8 c9 yield the documented timestamp, random, integer, hex and base62
values. -/
theorem C9_concrete :
    Timeflake.from_bytes demoBytes = Except.ok demoFlake ∧
    demoFlake.timestamp = some 1579091935216 ∧
    demoFlake.random = 724773312193627487660233 ∧
    demoFlake.to_bigint = 1909005012028578488143182045514754249 ∧
    demoFlake.to_hex = "016fa936bff0997a0a3c428548fee8c9" ∧
    demoFlake.to_base62 = "02i1KoFfY3auBS745gImbZ" := by decide

/-- C10: on every valid Timeflake the to_u64 conversion inside timestamp()
succeeds (the shifted value fits 48 bits, hence 64), both accessors stay in
range, and from_bytes succeeds on every 16-byte input. -/
theorem C10_totality :
    (∀ x : Timeflake, x.Valid →
      x.timestamp = some (x.int_value >>> 80) ∧
      x.int_value >>> 80 ≤ MAX_TIMESTAMP ∧
      x.random ≤ MAX_RANDOM) ∧
    (∀ l : List Nat, isBytes16 l → ∃ f, Timeflake.from_bytes l = Except.ok f) := by
  constructor
  · intro x hx
    have hinv := valid_invariants hx
    exact ⟨timestamp_some hx, hinv.2.1, hinv.2.2.1⟩
  · intro l hl
    exact ⟨_, from_bytes_ok hl⟩

/-- Witness for C10 at the concrete test vector. -/
theorem C10_totality_witness :
    demoFlake.Valid ∧
    (demoFlake.timestamp = some (demoFlake.int_value >>> 80) ∧
     demoFlake.int_value >>> 80 ≤ MAX_TIMESTAMP ∧
     demoFlake.random ≤ MAX_RANDOM) ∧
    isBytes16 demoBytes ∧ (∃ f, Timeflake.from_bytes demoBytes = Except.ok f) :=
  ⟨by decide, C10_totality.1 demoFlake (by decide), by decide,
    C10_totality.2 demoBytes (by decide)⟩

/-- Witness for C2 at the spec scenario from_components(MAX_TIMESTAMP + 1, 0). -/
theorem C2_range_enforcement_witness :
    (Timeflake.from_components (MAX_TIMESTAMP + 1) 0
       = Except.error (Error.InvalidTimestamp (MAX_TIMESTAMP + 1))
      ↔ MAX_TIMESTAMP + 1 > MAX_TIMESTAMP) ∧
    (Timeflake.from_components (MAX_TIMESTAMP + 1) 0
       = Except.error Error.InvalidRandom
      ↔ MAX_TIMESTAMP + 1 ≤ MAX_TIMESTAMP ∧ 0 > MAX_RANDOM) :=
  C2_range_enforcement (MAX_TIMESTAMP + 1) 0
